import Mathlib

/-!
Verification development for the `rohiitgit/web-crawler` repository.

The repository contains two variants of the crawl core:
* `src/crawler.py` — a synchronous recursive crawler (`is_valid`, `crawl`);
* `src/api.py` — an asyncio crawler (`is_valid`, `fetch`, `crawl`) wrapped in a
  Flask request layer.

This file gives a shallow embedding of those functions.  The external
boundaries are parametrised:
* the network/parse boundary of `crawl` is a map
  `w : String → Option (List String)` giving, per URL, `none` when the fetch
  fails (a `requests.RequestException` in crawler.py, a `None` return of
  `fetch` in api.py) and `some cands` when it succeeds, where `cands` is the
  list of `urljoin(url, href)` results for the page's anchors with truthy
  `href`, in document order;
* the HTTP boundary of api.py's `fetch` is a map `net : String → NetResult`.

`urlparse` (from Python's `urllib.parse`) is modelled by `urlsplitE` below,
covering the scheme/netloc extraction that `is_valid` reads, including the
`ValueError` ("Invalid IPv6 URL") that `urlsplit` raises on a netloc with
unbalanced square brackets.  The model mirrors modern CPython: tab/CR/LF
characters are removed, the scheme must start with an ASCII letter and
consist of letters, digits and `+-.`, and the netloc is the segment after
`//` up to the first of `/?#`.  (Deeper validation of bracketed hosts and
non-ASCII netlocs is omitted; it only widens the set of raising inputs.)
-/

/-- The characters CPython's `urlsplit` accepts inside a URL scheme. -/
def scheme_chars : List Char :=
  "abcdefghijklmnopqrstuvwxyzABCDEFGHIJKLMNOPQRSTUVWXYZ0123456789+-.".data

/-- Model of `urllib.parse.urlparse` restricted to the `(scheme, netloc)`
components that `is_valid` reads.  `Except.error` models the `ValueError`
that `urlsplit` raises on a netloc containing `[` without `]` (or vice
versa). -/
def urlsplitE (url : String) : Except String (String × String) :=
  let cs := url.data.filter (fun c => c != '\t' && c != '\r' && c != '\n')
  let pre := cs.takeWhile (fun c => c != ':')
  let sr :=
    if pre.length < cs.length && !pre.isEmpty &&
        (match pre with | c :: _ => c.isAlpha | [] => false) &&
        pre.all (fun c => scheme_chars.contains c)
    then (pre.map Char.toLower, cs.drop (pre.length + 1))
    else (([] : List Char), cs)
  match sr.2 with
  | '/' :: '/' :: r =>
    let netloc := r.takeWhile (fun c => c != '/' && c != '?' && c != '#')
    if (netloc.contains '[' && !netloc.contains ']') ||
        (netloc.contains ']' && !netloc.contains '[')
    then .error "Invalid IPv6 URL"
    else .ok (String.mk sr.1, String.mk netloc)
  | _ => .ok (String.mk sr.1, "")

/-- `is_valid` of src/api.py: the `try`/`except` wrapper turns any parse
error into `False`; otherwise it returns
`bool(parsed.netloc) and bool(parsed.scheme)`. -/
def is_valid (url : String) : Bool :=
  match urlsplitE url with
  | .ok sn => !sn.2.isEmpty && !sn.1.isEmpty
  | .error _ => false

/-- `is_valid` of src/crawler.py: same predicate but with no `try`/`except`,
so a parse error (`ValueError`) propagates to the caller. -/
def is_valid_sync (url : String) : Except String Bool :=
  match urlsplitE url with
  | .ok sn => .ok (!sn.2.isEmpty && !sn.1.isEmpty)
  | .error e => .error e

/-- One outbound HTTP request as issued by api.py's `fetch`:
`session.get(url, headers=headers, timeout=10)`. -/
structure HttpRequest where
  url : String
  timeoutSeconds : Nat
  userAgent : String
deriving DecidableEq

/-- Outcome of the network for one URL: a response with a status code and a
body, a timeout, or a connection failure. -/
inductive NetResult where
  | response (status : Nat) (body : String)
  | timedOut
  | connectionError
deriving DecidableEq

/-- Model of `session.get(url, headers={'User-Agent': ...}, timeout=10)`:
returns the network's outcome for `url` and logs the single request issued,
with its fixed timeout and identifying header. -/
def session_get (net : String → NetResult) (url : String) :
    NetResult × List HttpRequest :=
  (net url, [⟨url, 10, "rohiitgit-WebCrawler/1.0"⟩])

/-- api.py's `fetch`: one `session.get`, then `raise_for_status()` (aiohttp
raises for every status ≥ 400); every exception — bad status, timeout,
connection error — is caught and turned into `None`.  The second component
is the list of requests issued during the call. -/
def fetch (net : String → NetResult) (url : String) :
    Option String × List HttpRequest :=
  let rr := session_get net url
  match rr.1 with
  | .response st body => (if 400 ≤ st then none else some body, rr.2)
  | .timedOut => (none, rr.2)
  | .connectionError => (none, rr.2)

/-- A value stored in api.py's result dict: either a list of outbound links
(under a URL key) or an integer (under the literal key `'depth'`). -/
inductive Val where
  | links : List String → Val
  | int : Nat → Val
deriving DecidableEq, Repr

/-- api.py's result dict: an insertion-ordered association list, as Python
dicts are. -/
abbrev Res := List (String × Val)

/-- `d[k] = v` on an insertion-ordered dict: replace in place if the key is
present, append otherwise. -/
def dictInsert (m : Res) (k : String) (v : Val) : Res :=
  if m.any (fun e => e.1 = k) then
    m.map (fun e => if e.1 = k then (k, v) else e)
  else m ++ [(k, v)]

/-- Python's `dict.update`: insert every entry of `m'` into `m`, in order. -/
def dictUpdate (m : Res) (m' : Res) : Res :=
  m'.foldl (fun acc e => dictInsert acc e.1 e.2) m

/-- The dict api.py's `crawl` builds before fetching:
`result = {url: [], 'depth': current_depth}` — with the page's link list
filled in by the extraction loop (`links`). -/
def mkBase (url : String) (links : List String) (cd : Nat) : Res :=
  dictInsert (dictInsert [] url (Val.links links)) "depth" (Val.int cd)

/-- The URL-keyed page records of a result dict: every entry holding a link
list, i.e. everything except the bookkeeping `'depth'` entry. -/
def records (m : Res) : List (String × List String) :=
  m.filterMap (fun e => match e.2 with
    | Val.links ls => some (e.1, ls)
    | Val.int _ => none)

/-- The keys of a result dict other than the literal `'depth'` key. -/
def urlKeys (m : Res) : List String :=
  (m.map Prod.fst).filter (fun k => k != "depth")

/-- Shallow embedding of api.py's `async def crawl(url, depth, current_depth,
visited)`.

The Python function recurses while `current_depth < depth`; the extra first
argument `budget` only makes that recursion structural: the wrapper
`api_run` passes `depth + 1`, and every reachable recursive call keeps the
invariant `budget = depth + 1 - cd`, so the `0` case (which returns `{}`
exactly like the source's `current_depth > depth` guard) coincides with the
source's behaviour (see `apiCrawl_budget_irrelevant`).

Per the source: the guard returns `{}` when `current_depth > depth` or the
URL was already visited; otherwise the URL is added to `visited` *before*
the fetch; a failed fetch returns the base dict as-is; on success every
candidate that passes `is_valid` is appended to `result[url]`, and if
`current_depth < depth` a child crawl is gathered for each such link (the
children run at `current_depth + 1`, threading the shared visited set in
order) and each child's dict is merged into the result with
`result.update`. -/
def apiCrawl (w : String → Option (List String)) (depth : Nat) :
    Nat → Nat → String → List String → Res × List String
  | 0, _, _, vis => ([], vis)
  | b + 1, cd, url, vis =>
    if cd > depth ∨ url ∈ vis then ([], vis)
    else
      let vis1 := url :: vis
      match w url with
      | none => (mkBase url [] cd, vis1)
      | some cands =>
        let links := cands.filter is_valid
        let base := mkBase url links cd
        if cd < depth then
          let st := links.foldl
            (fun (acc : List Res × List String) l =>
              let q := apiCrawl w depth b (cd + 1) l acc.2
              (acc.1 ++ [q.1], q.2))
            ([], vis1)
          (st.1.foldl dictUpdate base, st.2)
        else (base, vis1)

/-- A top-level invocation of api.py's `crawl(url, depth)`: fresh empty
visited set, `current_depth = 0`, and a recursion budget of `depth + 1`
(always sufficient, see `apiCrawl_budget_irrelevant`). -/
def api_run (w : String → Option (List String)) (depth : Nat) (url : String) :
    Res × List String :=
  apiCrawl w depth (depth + 1) 0 url []

/-- crawler.py's result dict: URL → list of outbound links. -/
abbrev SRes := List (String × List String)

/-- `d[k] = v` for the synchronous crawler's dict. -/
def sInsert (m : SRes) (k : String) (v : List String) : SRes :=
  if m.any (fun e => e.1 = k) then
    m.map (fun e => if e.1 = k then (k, v) else e)
  else m ++ [(k, v)]

/-- `result[url].append(full_url)` for the synchronous crawler's dict. -/
def sAppend (m : SRes) (k : String) (l : String) : SRes :=
  m.map (fun e => if e.1 = k then (e.1, e.2 ++ [l]) else e)

/-- `dict.update` for the synchronous crawler's dict. -/
def sUpdate (m : SRes) (m' : SRes) : SRes :=
  m'.foldl (fun acc e => sInsert acc e.1 e.2) m

/-- Shallow embedding of crawler.py's `def crawl(url, depth, current_depth,
visited)`.  Same budget discipline as `apiCrawl`.

Differences from api.py faithfully kept: the result dict has no `'depth'`
entry; a failed fetch (`requests.RequestException`) is caught and yields
`{url: []}`; the recursion is interleaved with the link loop (append to
`result[url]`, then recurse immediately, threading the shared visited set);
and `is_valid` is the uncaught variant, so a `ValueError` raised by
`urlparse`/`urljoin` on a malformed candidate propagates out of `crawl`
(nothing in crawler.py or main.py catches it) — modelled by the `Except`
monad threaded through the loop. -/
def syncCrawl (w : String → Option (List String)) (depth : Nat) :
    Nat → Nat → String → List String → Except String (SRes × List String)
  | 0, _, _, vis => .ok ([], vis)
  | b + 1, cd, url, vis =>
    if cd > depth ∨ url ∈ vis then .ok ([], vis)
    else
      let vis1 := url :: vis
      match w url with
      | none => .ok ([(url, [])], vis1)
      | some cands =>
        cands.foldlM
          (fun (st : SRes × List String) c =>
            match is_valid_sync c with
            | .error e => .error e
            | .ok false => .ok st
            | .ok true =>
              let res1 := sAppend st.1 url c
              if cd < depth then
                match syncCrawl w depth b (cd + 1) c st.2 with
                | .error e => .error e
                | .ok q => .ok (sUpdate res1 q.1, q.2)
              else .ok (res1, st.2))
          ([(url, [])], vis1)

/-- A top-level invocation of crawler.py's `crawl(url, depth)`. -/
def sync_run (w : String → Option (List String)) (depth : Nat) (url : String) :
    Except String (SRes × List String) :=
  syncCrawl w depth (depth + 1) 0 url []

/-- State of an in-flight asyncio crawl, abstracted to what determines the
result's content: the shared visited set (in claim order), the claimed URLs
whose fetch has not yet completed (with the depth at which each was
claimed), and the page records produced so far. -/
structure CState where
  visited : List String
  pending : List (String × Nat)
  recs : List (String × List String)
deriving DecidableEq

/-- The synchronous prefix of a batch of child coroutines under
`asyncio.gather`: in list order, each link that is not yet visited is
claimed — added to the shared visited set and to the pending fetches at
depth `d`.  Already-visited links are skipped (their coroutine returns `{}`
without fetching). -/
def claimAll (ls : List String) (d : Nat) (s : CState) : CState :=
  ls.foldl
    (fun st l =>
      if l ∈ st.visited then st
      else { st with visited := st.visited ++ [l],
                     pending := st.pending ++ [(l, d)] })
    s

/-- One scheduling step of the asyncio crawl: the schedule value `k` picks
which pending fetch completes next (index `k % pending.length`).  That
task's page yields its `is_valid`-filtered candidate links (`[]` when its
fetch failed), its record is produced, and — exactly when its claim depth is
below `maxDepth` — its children are claimed in document order, as their
coroutines' synchronous prefixes run before any other fetch completion. -/
def stepOnce (w : String → Option (List String)) (depth : Nat)
    (s : CState) (k : Nat) : CState :=
  match s.pending with
  | [] => s
  | _ :: _ =>
    let i := k % s.pending.length
    let t := s.pending.getD i ("", 0)
    let ls := ((w t.1).getD []).filter is_valid
    let s2 : CState :=
      { visited := s.visited, pending := s.pending.eraseIdx i,
        recs := s.recs ++ [(t.1, ls)] }
    if t.2 < depth then claimAll ls (t.2 + 1) s2 else s2

/-- Run the asyncio crawl under a given fetch-completion schedule. -/
def runSched (w : String → Option (List String)) (depth : Nat)
    (sched : List Nat) (s : CState) : CState :=
  sched.foldl (stepOnce w depth) s

/-- Start of a crawl: the seed is claimed (at depth 0) before its fetch. -/
def initState (seed : String) : CState :=
  ⟨[seed], [(seed, 0)], []⟩

/-! ### Concrete fixtures -/

/-- Fixture URL. -/
def urlA : String := "http://a.com"

/-- Fixture URL. -/
def urlB : String := "http://b.com"

/-- Fixture URL. -/
def urlC : String := "http://c.com"

/-- Fixture URL. -/
def urlD : String := "http://d.com"

/-- Fixture URL. -/
def urlS : String := "http://s.com"

/-- Fixture URL. -/
def urlF : String := "http://f.com"

/-- Fixture URL. -/
def urlG : String := "http://g.com"

/-- Fixture URL. -/
def urlX : String := "http://x.com"

/-- Fixture URL. -/
def urlY : String := "http://y.com"

/-- Two-page mutual-link fixture: `A` links only to `B`, `B` only to `A`. -/
def wAB : String → Option (List String) := fun u =>
  if u = urlA then some [urlB] else if u = urlB then some [urlA] else none

/-- Every fetch fails. -/
def wFail : String → Option (List String) := fun _ => none

/-- `A`'s fetch succeeds with a page containing no links. -/
def wEmptyA : String → Option (List String) := fun u =>
  if u = urlA then some [] else none

/-- `A` links to `B`; `B` has no links. -/
def wA2B : String → Option (List String) := fun u =>
  if u = urlA then some [urlB] else if u = urlB then some [] else none

/-- Diamond fixture: `A` links to `B` and `C`; both link to `D`. -/
def wDiamond : String → Option (List String) := fun u =>
  if u = urlA then some [urlB, urlC]
  else if u = urlB then some [urlD]
  else if u = urlC then some [urlD]
  else if u = urlD then some [] else none

/-- Failure-isolation fixture: the seed `S` links to `B`, `C`, `D`; `C`'s
fetch fails; `B` and `D` succeed with empty pages. -/
def wC4 : String → Option (List String) := fun u =>
  if u = urlS then some [urlB, urlC, urlD]
  else if u = urlB then some []
  else if u = urlC then none
  else if u = urlD then some [] else none

/-- Scheduling fixture: `A` links to `S` and `F`; `S` links to `X`;
`F` links to `G`; `G` links to `X`; `X` links to `Y`. -/
def wC7 : String → Option (List String) := fun u =>
  if u = urlA then some [urlS, urlF]
  else if u = urlS then some [urlX]
  else if u = urlF then some [urlG]
  else if u = urlG then some [urlX]
  else if u = urlX then some [urlY]
  else if u = urlY then some [] else none

/-! ### Helper lemmas: the dict model -/

theorem is_valid_ne_depth {k : String} (h : is_valid k = true) : k ≠ "depth" := by
  intro he
  rw [he] at h
  exact absurd h (by decide)

theorem any_key_iff (m : Res) (k : String) :
    (m.any (fun e => e.1 = k)) = true ↔ k ∈ m.map Prod.fst := by
  simp [List.any_eq_true, List.mem_map]

theorem keys_dictInsert (m : Res) (k : String) (v : Val) :
    (dictInsert m k v).map Prod.fst =
      if k ∈ m.map Prod.fst then m.map Prod.fst else m.map Prod.fst ++ [k] := by
  unfold dictInsert
  by_cases h : k ∈ m.map Prod.fst
  · rw [if_pos ((any_key_iff m k).mpr h), if_pos h, List.map_map]
    refine List.map_congr_left ?_
    intro e _
    by_cases hek : e.1 = k
    · simp [hek]
    · simp [hek]
  · rw [if_neg (fun hh => h ((any_key_iff m k).mp hh)), if_neg h, List.map_append]
    simp

theorem nodup_keys_dictInsert (m : Res) (k : String) (v : Val)
    (h : (m.map Prod.fst).Nodup) : ((dictInsert m k v).map Prod.fst).Nodup := by
  rw [keys_dictInsert]
  by_cases hk : k ∈ m.map Prod.fst
  · rwa [if_pos hk]
  · rw [if_neg hk]
    simp [List.nodup_append, h, hk]

theorem mem_keys_dictInsert (m : Res) (k k' : String) (v : Val) :
    k ∈ (dictInsert m k' v).map Prod.fst ↔ k ∈ m.map Prod.fst ∨ k = k' := by
  rw [keys_dictInsert]
  by_cases h : k' ∈ m.map Prod.fst
  · rw [if_pos h]
    constructor
    · exact Or.inl
    · rintro (hk | rfl)
      · exact hk
      · exact h
  · rw [if_neg h]
    simp

theorem dictUpdate_cons (a : Res) (e : String × Val) (es : Res) :
    dictUpdate a (e :: es) = dictUpdate (dictInsert a e.1 e.2) es := rfl

theorem mem_keys_dictUpdate (a b : Res) (k : String) :
    k ∈ (dictUpdate a b).map Prod.fst ↔
      k ∈ a.map Prod.fst ∨ k ∈ b.map Prod.fst := by
  induction b generalizing a with
  | nil => simp [dictUpdate]
  | cons e es ih =>
    rw [dictUpdate_cons, ih, mem_keys_dictInsert]
    simp [or_assoc]

theorem nodup_keys_dictUpdate (a b : Res) (h : (a.map Prod.fst).Nodup) :
    ((dictUpdate a b).map Prod.fst).Nodup := by
  induction b generalizing a with
  | nil => exact h
  | cons e es ih =>
    rw [dictUpdate_cons]
    exact ih _ (nodup_keys_dictInsert _ _ _ h)

theorem mem_keys_foldl_dictUpdate (rs : List Res) (base : Res) (k : String) :
    k ∈ ((rs.foldl dictUpdate base).map Prod.fst) ↔
      k ∈ base.map Prod.fst ∨ ∃ r ∈ rs, k ∈ r.map Prod.fst := by
  induction rs generalizing base with
  | nil => simp
  | cons r rs ih =>
    rw [List.foldl_cons, ih, mem_keys_dictUpdate]
    simp [or_assoc]

theorem nodup_keys_foldl_dictUpdate (rs : List Res) (base : Res)
    (h : (base.map Prod.fst).Nodup) :
    ((rs.foldl dictUpdate base).map Prod.fst).Nodup := by
  induction rs generalizing base with
  | nil => exact h
  | cons r rs ih => exact ih _ (nodup_keys_dictUpdate _ _ h)

theorem mem_urlKeys (m : Res) (k : String) :
    k ∈ urlKeys m ↔ k ∈ m.map Prod.fst ∧ k ≠ "depth" := by
  simp [urlKeys, List.mem_filter]

theorem nodup_urlKeys (m : Res) (h : (m.map Prod.fst).Nodup) :
    (urlKeys m).Nodup := h.filter _

theorem mkBase_eq (url : String) (links : List String) (cd : Nat)
    (h : url ≠ "depth") :
    mkBase url links cd = [(url, Val.links links), ("depth", Val.int cd)] := by
  simp [mkBase, dictInsert, h]

theorem mkBase_depth_eq (links : List String) (cd : Nat) :
    mkBase "depth" links cd = [("depth", Val.int cd)] := by
  simp [mkBase, dictInsert]

theorem keys_mkBase (url : String) (links : List String) (cd : Nat)
    (h : url ≠ "depth") :
    (mkBase url links cd).map Prod.fst = [url, "depth"] := by
  rw [mkBase_eq _ _ _ h]
  simp

theorem urlKeys_mkBase (url : String) (links : List String) (cd : Nat)
    (h : url ≠ "depth") : urlKeys (mkBase url links cd) = [url] := by
  rw [mkBase_eq _ _ _ h]
  simp [urlKeys, h]

theorem urlKeys_mkBase_depth (links : List String) (cd : Nat) :
    urlKeys (mkBase "depth" links cd) = [] := by
  rw [mkBase_depth_eq]
  simp [urlKeys]

/-- The URL keys contributed by a list of child results. -/
def joinKeys (rs : List Res) : List String :=
  (rs.map urlKeys).flatten

theorem mem_joinKeys (rs : List Res) (k : String) :
    k ∈ joinKeys rs ↔ ∃ r ∈ rs, k ∈ urlKeys r := by
  simp [joinKeys, List.mem_flatten]

/-- The child-gathering loop of `apiCrawl`, named for use in proofs: it is
definitionally the `foldl` in `apiCrawl`'s recursive branch. -/
def gatherGo (w : String → Option (List String)) (depth b cd : Nat)
    (ls : List String) (acc : List Res × List String) : List Res × List String :=
  ls.foldl
    (fun (acc : List Res × List String) l =>
      let q := apiCrawl w depth b (cd + 1) l acc.2
      (acc.1 ++ [q.1], q.2))
    acc

theorem gatherGo_nil (w : String → Option (List String)) (depth b cd : Nat)
    (acc : List Res × List String) : gatherGo w depth b cd [] acc = acc := rfl

theorem gatherGo_cons (w : String → Option (List String)) (depth b cd : Nat)
    (l : String) (ls : List String) (acc : List Res × List String) :
    gatherGo w depth b cd (l :: ls) acc =
      gatherGo w depth b cd ls
        (acc.1 ++ [(apiCrawl w depth b (cd + 1) l acc.2).1],
         (apiCrawl w depth b (cd + 1) l acc.2).2) := rfl

theorem gatherGo_acc (w : String → Option (List String)) (depth b cd : Nat)
    (ls : List String) :
    ∀ (rs0 : List Res) (vis0 : List String),
      gatherGo w depth b cd ls (rs0, vis0) =
        (rs0 ++ (gatherGo w depth b cd ls ([], vis0)).1,
         (gatherGo w depth b cd ls ([], vis0)).2) := by
  induction ls with
  | nil => intro rs0 vis0; simp [gatherGo_nil]
  | cons l ls ih =>
    intro rs0 vis0
    rw [gatherGo_cons, gatherGo_cons]
    simp only [List.nil_append]
    rw [ih, ih [(apiCrawl w depth b (cd + 1) l vis0).1] (apiCrawl w depth b (cd + 1) l vis0).2]
    simp

/-- Unfolding of `apiCrawl` at a positive budget, phrased with `mkBase` and
`gatherGo`. -/
theorem apiCrawl_succ (w : String → Option (List String)) (depth b cd : Nat)
    (url : String) (vis : List String) :
    apiCrawl w depth (b + 1) cd url vis =
      if cd > depth ∨ url ∈ vis then ([], vis)
      else
        match w url with
        | none => (mkBase url [] cd, url :: vis)
        | some cands =>
          if cd < depth then
            ((gatherGo w depth b cd (cands.filter is_valid) ([], url :: vis)).1.foldl
               dictUpdate (mkBase url (cands.filter is_valid) cd),
             (gatherGo w depth b cd (cands.filter is_valid) ([], url :: vis)).2)
          else (mkBase url (cands.filter is_valid) cd, url :: vis) := rfl

/-! ### Unfolding lemmas for `apiCrawl` -/

theorem apiCrawl_zero (w : String → Option (List String)) (depth cd : Nat)
    (url : String) (vis : List String) :
    apiCrawl w depth 0 cd url vis = ([], vis) := rfl

theorem apiCrawl_stop (w : String → Option (List String)) (depth b cd : Nat)
    (url : String) (vis : List String) (hg : cd > depth ∨ url ∈ vis) :
    apiCrawl w depth b cd url vis = ([], vis) := by
  cases b with
  | zero => rfl
  | succ b => rw [apiCrawl_succ, if_pos hg]

theorem apiCrawl_fail (w : String → Option (List String)) (depth b cd : Nat)
    (url : String) (vis : List String) (hg : ¬(cd > depth ∨ url ∈ vis))
    (hw : w url = none) :
    apiCrawl w depth (b + 1) cd url vis = (mkBase url [] cd, url :: vis) := by
  rw [apiCrawl_succ, if_neg hg]
  simp only [hw]

theorem apiCrawl_leaf (w : String → Option (List String)) (depth b cd : Nat)
    (url : String) (vis : List String) (cands : List String)
    (hg : ¬(cd > depth ∨ url ∈ vis)) (hw : w url = some cands)
    (hlt : ¬ cd < depth) :
    apiCrawl w depth (b + 1) cd url vis =
      (mkBase url (cands.filter is_valid) cd, url :: vis) := by
  rw [apiCrawl_succ, if_neg hg]
  simp only [hw]
  rw [if_neg hlt]

theorem apiCrawl_rec (w : String → Option (List String)) (depth b cd : Nat)
    (url : String) (vis : List String) (cands : List String)
    (hg : ¬(cd > depth ∨ url ∈ vis)) (hw : w url = some cands)
    (hlt : cd < depth) :
    apiCrawl w depth (b + 1) cd url vis =
      ((gatherGo w depth b cd (cands.filter is_valid) ([], url :: vis)).1.foldl
         dictUpdate (mkBase url (cands.filter is_valid) cd),
       (gatherGo w depth b cd (cands.filter is_valid) ([], url :: vis)).2) := by
  rw [apiCrawl_succ, if_neg hg]
  simp only [hw]
  rw [if_pos hlt]

/-! ### The inductive invariant of `apiCrawl` -/

/-- Invariant of one `apiCrawl` call: the visited set only grows; every URL
key of the result is newly visited; the result dict's keys are free of
duplicates; every key other than the call's own URL passed `is_valid`; and
(when the call's URL is not the literal string `"depth"`) the final visited
set is exactly the initial one plus the result's URL keys. -/
def CrawlInv (w : String → Option (List String)) (depth b cd : Nat)
    (url : String) (vis : List String) : Prop :=
  vis ⊆ (apiCrawl w depth b cd url vis).2 ∧
  (∀ k, k ∈ urlKeys (apiCrawl w depth b cd url vis).1 →
      k ∈ (apiCrawl w depth b cd url vis).2 ∧ k ∉ vis) ∧
  ((apiCrawl w depth b cd url vis).1.map Prod.fst).Nodup ∧
  (∀ k, k ∈ urlKeys (apiCrawl w depth b cd url vis).1 →
      k = url ∨ is_valid k = true) ∧
  (url ≠ "depth" →
    ∀ k, k ∈ (apiCrawl w depth b cd url vis).2 ↔
      (k ∈ vis ∨ k ∈ urlKeys (apiCrawl w depth b cd url vis).1))

theorem mkBase_result_inv (url : String) (vis : List String)
    (links : List String) (cd : Nat) (hnv : url ∉ vis) :
    vis ⊆ url :: vis ∧
    (∀ k, k ∈ urlKeys (mkBase url links cd) → k ∈ url :: vis ∧ k ∉ vis) ∧
    ((mkBase url links cd).map Prod.fst).Nodup ∧
    (∀ k, k ∈ urlKeys (mkBase url links cd) → k = url ∨ is_valid k = true) ∧
    (url ≠ "depth" →
      ∀ k, k ∈ url :: vis ↔ (k ∈ vis ∨ k ∈ urlKeys (mkBase url links cd))) := by
  by_cases hud : url = "depth"
  · subst hud
    refine ⟨fun x h => List.mem_cons_of_mem _ h, ?_, ?_, ?_, ?_⟩
    · intro k hk
      rw [urlKeys_mkBase_depth] at hk
      simp at hk
    · rw [mkBase_depth_eq]
      simp
    · intro k hk
      rw [urlKeys_mkBase_depth] at hk
      simp at hk
    · intro hne
      exact absurd rfl hne
  · refine ⟨fun x h => List.mem_cons_of_mem _ h, ?_, ?_, ?_, ?_⟩
    · intro k hk
      rw [urlKeys_mkBase _ _ _ hud] at hk
      simp at hk
      subst hk
      exact ⟨List.mem_cons_self _ _, hnv⟩
    · rw [keys_mkBase _ _ _ hud]
      simp [hud]
    · intro k hk
      rw [urlKeys_mkBase _ _ _ hud] at hk
      simp at hk
      exact Or.inl hk
    · intro _ k
      rw [urlKeys_mkBase _ _ _ hud]
      simp [List.mem_cons]
      tauto

theorem gather_inv (w : String → Option (List String)) (depth b cd : Nat)
    (ih : ∀ (cd' : Nat) (url' : String) (vis' : List String),
      CrawlInv w depth b cd' url' vis') :
    ∀ (ls : List String) (vis0 : List String),
      (∀ l ∈ ls, is_valid l = true) →
      vis0 ⊆ (gatherGo w depth b cd ls ([], vis0)).2 ∧
      (∀ k, k ∈ joinKeys (gatherGo w depth b cd ls ([], vis0)).1 →
          k ∈ (gatherGo w depth b cd ls ([], vis0)).2 ∧ k ∉ vis0 ∧
            is_valid k = true) ∧
      (joinKeys (gatherGo w depth b cd ls ([], vis0)).1).Nodup ∧
      (∀ r ∈ (gatherGo w depth b cd ls ([], vis0)).1, (r.map Prod.fst).Nodup) ∧
      (∀ k, k ∈ (gatherGo w depth b cd ls ([], vis0)).2 ↔
          (k ∈ vis0 ∨ k ∈ joinKeys (gatherGo w depth b cd ls ([], vis0)).1)) := by
  intro ls
  induction ls with
  | nil =>
    intro vis0 _
    refine ⟨fun x h => h, ?_, ?_, ?_, ?_⟩
    · intro k hk
      simp [gatherGo_nil, joinKeys] at hk
    · simp [gatherGo_nil, joinKeys]
    · intro r hr
      simp [gatherGo_nil] at hr
    · intro k
      simp [gatherGo_nil, joinKeys]
  | cons l ls ihl =>
    intro vis0 hval
    have hl : is_valid l = true := hval l (List.mem_cons_self l ls)
    have hld : l ≠ "depth" := is_valid_ne_depth hl
    obtain ⟨c1, c2, c3, c4, c5⟩ := ih (cd + 1) l vis0
    obtain ⟨g1, g2, g3, g4, g5⟩ :=
      ihl (apiCrawl w depth b (cd + 1) l vis0).2
        (fun x hx => hval x (List.mem_cons_of_mem _ hx))
    have hdec : gatherGo w depth b cd (l :: ls) ([], vis0) =
        ([(apiCrawl w depth b (cd + 1) l vis0).1] ++
           (gatherGo w depth b cd ls
             ([], (apiCrawl w depth b (cd + 1) l vis0).2)).1,
         (gatherGo w depth b cd ls
           ([], (apiCrawl w depth b (cd + 1) l vis0).2)).2) := by
      rw [gatherGo_cons]
      simp only [List.nil_append]
      exact gatherGo_acc w depth b cd ls _ _
    rw [hdec]
    refine ⟨?_, ?_, ?_, ?_, ?_⟩
    · exact fun x hx => g1 (c1 hx)
    · intro k hk
      simp only [List.cons_append, List.nil_append, joinKeys, List.map_cons,
        List.flatten_cons] at hk
      rcases List.mem_append.mp hk with hk1 | hk2
      · obtain ⟨hkq, hknv⟩ := c2 k hk1
        rcases c4 k hk1 with hkl | hkv
        · exact ⟨g1 hkq, hknv, hkl ▸ hl⟩
        · exact ⟨g1 hkq, hknv, hkv⟩
      · obtain ⟨hkt, hknq, hkv⟩ := g2 k hk2
        exact ⟨hkt, fun hv => hknq (c1 hv), hkv⟩
    · simp only [List.cons_append, List.nil_append, joinKeys, List.map_cons,
        List.flatten_cons]
      rw [List.nodup_append]
      refine ⟨nodup_urlKeys _ c3, g3, ?_⟩
      intro a ha hat
      exact (g2 a hat).2.1 (c2 a ha).1
    · intro r hr
      simp only [List.cons_append, List.nil_append, List.mem_cons] at hr
      rcases hr with rfl | hr
      · exact c3
      · exact g4 r hr
    · intro k
      rw [g5 k, c5 hld k]
      simp only [List.cons_append, List.nil_append, joinKeys, List.map_cons,
        List.flatten_cons, List.mem_append]
      tauto

theorem apiCrawl_inv (w : String → Option (List String)) (depth : Nat) :
    ∀ (b cd : Nat) (url : String) (vis : List String),
      CrawlInv w depth b cd url vis := by
  intro b
  induction b with
  | zero =>
    intro cd url vis
    refine ⟨fun x h => h, ?_, ?_, ?_, ?_⟩
    · intro k hk
      simp [apiCrawl_zero, urlKeys] at hk
    · simp [apiCrawl_zero]
    · intro k hk
      simp [apiCrawl_zero, urlKeys] at hk
    · intro _ k
      simp [apiCrawl_zero, urlKeys]
  | succ b ihb =>
    intro cd url vis
    by_cases hg : cd > depth ∨ url ∈ vis
    · unfold CrawlInv
      rw [apiCrawl_stop w depth (b + 1) cd url vis hg]
      refine ⟨fun x h => h, ?_, ?_, ?_, ?_⟩
      · intro k hk
        simp [urlKeys] at hk
      · simp
      · intro k hk
        simp [urlKeys] at hk
      · intro _ k
        simp [urlKeys]
    · have hnv : url ∉ vis := fun h => hg (Or.inr h)
      cases hw : w url with
      | none =>
        unfold CrawlInv
        rw [apiCrawl_fail w depth b cd url vis hg hw]
        exact mkBase_result_inv url vis [] cd hnv
      | some cands =>
        by_cases hlt : cd < depth
        · unfold CrawlInv
          rw [apiCrawl_rec w depth b cd url vis cands hg hw hlt]
          have hval : ∀ l ∈ cands.filter is_valid, is_valid l = true :=
            fun l hl => List.of_mem_filter hl
          obtain ⟨g1, g2, g3, g4, g5⟩ :=
            gather_inv w depth b cd ihb (cands.filter is_valid) (url :: vis) hval
          have hkm : ∀ k,
              k ∈ urlKeys
                ((gatherGo w depth b cd (cands.filter is_valid)
                    ([], url :: vis)).1.foldl dictUpdate
                  (mkBase url (cands.filter is_valid) cd)) ↔
              (k ∈ urlKeys (mkBase url (cands.filter is_valid) cd) ∨
               k ∈ joinKeys (gatherGo w depth b cd (cands.filter is_valid)
                 ([], url :: vis)).1) := by
            intro k
            rw [mem_urlKeys, mem_keys_foldl_dictUpdate, mem_urlKeys, mem_joinKeys]
            constructor
            · rintro ⟨hb | ⟨r, hr, hkr⟩, hkd⟩
              · exact Or.inl ⟨hb, hkd⟩
              · exact Or.inr ⟨r, hr, (mem_urlKeys r k).mpr ⟨hkr, hkd⟩⟩
            · rintro (⟨hb, hkd⟩ | ⟨r, hr, hkr⟩)
              · exact ⟨Or.inl hb, hkd⟩
              · obtain ⟨hkr1, hkr2⟩ := (mem_urlKeys r k).mp hkr
                exact ⟨Or.inr ⟨r, hr, hkr1⟩, hkr2⟩
          refine ⟨?_, ?_, ?_, ?_, ?_⟩
          · exact fun x hx => g1 (List.mem_cons_of_mem _ hx)
          · intro k hk
            rcases (hkm k).mp hk with hkb | hkj
            · by_cases hud : url = "depth"
              · rw [hud, urlKeys_mkBase_depth] at hkb
                simp at hkb
              · rw [urlKeys_mkBase _ _ _ hud] at hkb
                simp at hkb
                subst hkb
                exact ⟨g1 (List.mem_cons_self _ _), hnv⟩
            · obtain ⟨hkt, hknv, _⟩ := g2 k hkj
              exact ⟨hkt, fun hv => hknv (List.mem_cons_of_mem _ hv)⟩
          · apply nodup_keys_foldl_dictUpdate
            by_cases hud : url = "depth"
            · rw [hud, mkBase_depth_eq]
              simp
            · rw [keys_mkBase _ _ _ hud]
              simp [hud]
          · intro k hk
            rcases (hkm k).mp hk with hkb | hkj
            · by_cases hud : url = "depth"
              · rw [hud, urlKeys_mkBase_depth] at hkb
                simp at hkb
              · rw [urlKeys_mkBase _ _ _ hud] at hkb
                simp at hkb
                exact Or.inl hkb
            · exact Or.inr (g2 k hkj).2.2
          · intro hud k
            rw [g5 k]
            have hmm : k ∈ urlKeys
                ((gatherGo w depth b cd (cands.filter is_valid)
                    ([], url :: vis)).1.foldl dictUpdate
                  (mkBase url (cands.filter is_valid) cd)) ↔
                (k = url ∨ k ∈ joinKeys (gatherGo w depth b cd
                  (cands.filter is_valid) ([], url :: vis)).1) := by
              rw [hkm k, urlKeys_mkBase _ _ _ hud]
              simp
            rw [hmm]
            simp only [List.mem_cons]
            tauto
        · unfold CrawlInv
          rw [apiCrawl_leaf w depth b cd url vis cands hg hw hlt]
          exact mkBase_result_inv url vis (cands.filter is_valid) cd hnv

/-! ### Budget irrelevance: any budget covering the depth window computes the
same result, so `api_run`'s budget `depth + 1` loses nothing and the
recursion tree of the source is bounded by the depth budget. -/

theorem apiCrawl_budget_irrelevant (w : String → Option (List String))
    (depth : Nat) :
    ∀ (b1 b2 cd : Nat) (url : String) (vis : List String),
      depth + 1 - cd ≤ b1 → depth + 1 - cd ≤ b2 →
      apiCrawl w depth b1 cd url vis = apiCrawl w depth b2 cd url vis := by
  intro b1
  induction b1 with
  | zero =>
    intro b2 cd url vis h1 _
    have hcd : cd > depth := by omega
    rw [apiCrawl_stop w depth 0 cd url vis (Or.inl hcd),
        apiCrawl_stop w depth b2 cd url vis (Or.inl hcd)]
  | succ b ih =>
    intro b2 cd url vis h1 h2
    cases b2 with
    | zero =>
      have hcd : cd > depth := by omega
      rw [apiCrawl_stop w depth (b + 1) cd url vis (Or.inl hcd),
          apiCrawl_stop w depth 0 cd url vis (Or.inl hcd)]
    | succ b2 =>
      by_cases hg : cd > depth ∨ url ∈ vis
      · rw [apiCrawl_stop w depth (b + 1) cd url vis hg,
            apiCrawl_stop w depth (b2 + 1) cd url vis hg]
      · cases hw : w url with
        | none =>
          rw [apiCrawl_fail w depth b cd url vis hg hw,
              apiCrawl_fail w depth b2 cd url vis hg hw]
        | some cands =>
          by_cases hlt : cd < depth
          · have hb : depth + 1 - (cd + 1) ≤ b := by omega
            have hb2 : depth + 1 - (cd + 1) ≤ b2 := by omega
            have hgather : ∀ (ls : List String) (acc : List Res × List String),
                gatherGo w depth b cd ls acc = gatherGo w depth b2 cd ls acc := by
              intro ls
              induction ls with
              | nil => intro acc; rfl
              | cons l ls ihl =>
                intro acc
                rw [gatherGo_cons, gatherGo_cons,
                    ih b2 (cd + 1) l acc.2 hb hb2]
                exact ihl _
            rw [apiCrawl_rec w depth b cd url vis cands hg hw hlt,
                apiCrawl_rec w depth b2 cd url vis cands hg hw hlt, hgather]
          · rw [apiCrawl_leaf w depth b cd url vis cands hg hw hlt,
                apiCrawl_leaf w depth b2 cd url vis cands hg hw hlt]

/-! ### Schedule lemmas for the asyncio model -/

theorem runSched_nil (w : String → Option (List String)) (depth : Nat)
    (s : CState) : runSched w depth [] s = s := rfl

theorem runSched_cons (w : String → Option (List String)) (depth k : Nat)
    (sched : List Nat) (s : CState) :
    runSched w depth (k :: sched) s =
      runSched w depth sched (stepOnce w depth s k) := rfl

/-- The record a pending task will produce once its fetch completes. -/
def pendRec (w : String → Option (List String)) (t : String × Nat) :
    String × List String :=
  (t.1, ((w t.1).getD []).filter is_valid)

/-- The content a crawl state is already committed to: records produced so
far plus one record per claimed-but-unfetched URL. -/
def contentsL (w : String → Option (List String)) (s : CState) :
    List (String × List String) :=
  s.recs ++ s.pending.map (pendRec w)

theorem getD_cons_eraseIdx {α : Type} (d : α) :
    ∀ (l : List α) (i : Nat), i < l.length →
      l.Perm (l.getD i d :: l.eraseIdx i) := by
  intro l
  induction l with
  | nil =>
    intro i hi
    simp at hi
  | cons x xs ih =>
    intro i hi
    cases i with
    | zero => exact List.Perm.refl _
    | succ i =>
      have hi' : i < xs.length := by simpa using hi
      have hx := (ih i hi').cons x
      exact hx.trans (List.Perm.swap _ _ _)

theorem stepOnce_no_recurse (w : String → Option (List String)) (depth : Nat)
    (s : CState) (k : Nat) (hp : ∀ t ∈ s.pending, ¬ t.2 < depth) :
    (contentsL w (stepOnce w depth s k)).Perm (contentsL w s) ∧
    (∀ t ∈ (stepOnce w depth s k).pending, ¬ t.2 < depth) ∧
    (stepOnce w depth s k).visited = s.visited := by
  obtain ⟨vis, pend, rcs⟩ := s
  cases pend with
  | nil => exact ⟨List.Perm.refl _, hp, rfl⟩
  | cons t0 rest =>
    have hlen : 0 < (t0 :: rest).length := by simp
    have hi : k % (t0 :: rest).length < (t0 :: rest).length := Nat.mod_lt _ hlen
    have hperm : (t0 :: rest).Perm
        ((t0 :: rest).getD (k % (t0 :: rest).length) ("", 0) ::
          (t0 :: rest).eraseIdx (k % (t0 :: rest).length)) :=
      getD_cons_eraseIdx _ _ _ hi
    have htmem : (t0 :: rest).getD (k % (t0 :: rest).length) ("", 0) ∈ t0 :: rest :=
      hperm.mem_iff.mpr (List.mem_cons_self _ _)
    have hnd : ¬ ((t0 :: rest).getD (k % (t0 :: rest).length) ("", 0)).2 < depth :=
      hp _ htmem
    simp only [stepOnce]
    rw [if_neg hnd]
    refine ⟨?_, ?_, rfl⟩
    · simp only [contentsL, pendRec]
      rw [List.append_assoc]
      exact List.Perm.append_left rcs ((hperm.map (pendRec w)).symm)
    · intro t ht
      exact hp t ((List.eraseIdx_sublist _ _).subset ht)

theorem runSched_no_recurse (w : String → Option (List String)) (depth : Nat) :
    ∀ (sched : List Nat) (s : CState),
      (∀ t ∈ s.pending, ¬ t.2 < depth) →
      (contentsL w (runSched w depth sched s)).Perm (contentsL w s) ∧
      (∀ t ∈ (runSched w depth sched s).pending, ¬ t.2 < depth) := by
  intro sched
  induction sched with
  | nil =>
    intro s hp
    exact ⟨List.Perm.refl _, hp⟩
  | cons k rest ih =>
    intro s hp
    obtain ⟨hperm, hpend, _⟩ := stepOnce_no_recurse w depth s k hp
    obtain ⟨hperm2, hpend2⟩ := ih (stepOnce w depth s k) hpend
    rw [runSched_cons]
    exact ⟨hperm2.trans hperm, hpend2⟩

theorem stepOnce_singleton (w : String → Option (List String)) (depth : Nat)
    (s : CState) (k : Nat) (hp : s.pending.length = 1) :
    stepOnce w depth s k = stepOnce w depth s 0 := by
  obtain ⟨vis, pend, rcs⟩ := s
  cases pend with
  | nil => rfl
  | cons t0 rest =>
    have hrest : rest = [] := by simpa using hp
    subst hrest
    simp [stepOnce, Nat.mod_one]

theorem claimAll_pending (ls : List String) (d : Nat) :
    ∀ (s : CState) (t : String × Nat), t ∈ (claimAll ls d s).pending →
      t ∈ s.pending ∨ t.2 = d := by
  induction ls with
  | nil =>
    intro s t ht
    exact Or.inl ht
  | cons l ls ih =>
    intro s t ht
    simp only [claimAll, List.foldl_cons] at ht
    by_cases hv : l ∈ s.visited
    · rw [if_pos hv] at ht
      exact ih s t ht
    · rw [if_neg hv] at ht
      rcases ih _ t ht with hmem | hd
      · simp only [List.mem_append] at hmem
        rcases hmem with hmem | hmem
        · exact Or.inl hmem
        · simp at hmem
          right
          rw [hmem]
      · exact Or.inr hd

theorem not_isEmpty_iff_ne (t : String) : (!t.isEmpty) = true ↔ t ≠ "" := by
  constructor
  · intro hb he
    subst he
    exact absurd hb (by decide)
  · intro hne
    cases hb : t.isEmpty with
    | false => rfl
    | true =>
      exact ((hne ((String.isEmpty_iff t).mp hb)).elim)

/-- After the (forced) first step of a `maxDepth = 1` crawl, every pending
task sits at depth 1, so no later step claims any further URL. -/
theorem firstStep_pending (w : String → Option (List String)) (seed : String) :
    ∀ t ∈ (stepOnce w 1 (initState seed) 0).pending, ¬ t.2 < 1 := by
  have hT : stepOnce w 1 (initState seed) 0 =
      claimAll (((w seed).getD []).filter is_valid) 1
        ⟨[seed], [], [(seed, ((w seed).getD []).filter is_valid)]⟩ := rfl
  rw [hT]
  intro t ht
  rcases claimAll_pending _ _ _ t ht with hmem | hd
  · simp at hmem
  · omega

/-- Any completed `maxDepth = 1` run has, up to order, the content fixed by
the first (forced) step. -/
theorem depth_one_complete_run (w : String → Option (List String))
    (seed : String) (sched : List Nat)
    (hemp : (runSched w 1 sched (initState seed)).pending = []) :
    ((runSched w 1 sched (initState seed)).recs).Perm
      (contentsL w (stepOnce w 1 (initState seed) 0)) := by
  cases sched with
  | nil =>
    rw [runSched_nil] at hemp
    simp [initState] at hemp
  | cons k rest =>
    rw [runSched_cons] at hemp ⊢
    rw [stepOnce_singleton w 1 (initState seed) k rfl] at hemp ⊢
    obtain ⟨hperm, _⟩ := runSched_no_recurse w 1 rest
      (stepOnce w 1 (initState seed) 0) (firstStep_pending w seed)
    have hc : contentsL w (runSched w 1 rest (stepOnce w 1 (initState seed) 0)) =
        (runSched w 1 rest (stepOnce w 1 (initState seed) 0)).recs := by
      simp [contentsL, hemp]
    rw [← hc]
    exact hperm

/-! ### Claim theorems -/

/-- C1: in a top-level invocation of api.py's `crawl` with a validated seed,
every URL enters the shared visited set exactly once — at claim time, before
its fetch, so it is visited and recorded even when its own fetch fails — and
the returned mapping has at most one entry per URL even on diamond-shaped or
cyclic link graphs: its key list is duplicate-free and its URL keys coincide
with the final visited set. -/
theorem crawl_claims_each_url_once (w : String → Option (List String))
    (depth : Nat) (seed : String) (h : is_valid seed = true) :
    ((api_run w depth seed).1.map Prod.fst).Nodup ∧
    (∀ k, k ∈ (api_run w depth seed).2 ↔ k ∈ urlKeys (api_run w depth seed).1) ∧
    (w seed = none →
      (api_run w depth seed).1.map Prod.fst = [seed, "depth"] ∧
      (api_run w depth seed).2 = [seed]) ∧
    records (api_run wDiamond 2 urlA).1 =
      [(urlA, [urlB, urlC]), (urlB, [urlD]), (urlD, []), (urlC, [urlD])] := by
  have hd := is_valid_ne_depth h
  obtain ⟨i1, i2, i3, i4, i5⟩ := apiCrawl_inv w depth (depth + 1) 0 seed []
  simp only [api_run]
  refine ⟨i3, ?_, ?_, by decide⟩
  · intro k
    rw [i5 hd k]
    simp
  · intro hw
    have hg : ¬((0 : Nat) > depth ∨ seed ∈ ([] : List String)) := by simp
    have hrun : apiCrawl w depth (depth + 1) 0 seed [] = (mkBase seed [] 0, [seed]) :=
      apiCrawl_fail w depth depth 0 seed [] hg hw
    rw [hrun, keys_mkBase _ _ _ hd]
    exact ⟨rfl, rfl⟩

/-- Witness for `crawl_claims_each_url_once` at a concrete fixture. -/
theorem crawl_claims_each_url_once_witness :
    ((api_run wAB 5 urlA).1.map Prod.fst).Nodup ∧
    (urlB ∈ (api_run wAB 5 urlA).2 ↔ urlB ∈ urlKeys (api_run wAB 5 urlA).1) := by
  have h := crawl_claims_each_url_once wAB 5 urlA (by decide)
  exact ⟨h.1, h.2.1 urlB⟩

/-- C2: the crawl terminates on every link graph, cyclic ones included: the
remaining depth window `depth + 1 - current_depth` bounds the recursion (any
recursion budget at least that large computes the same total result), and on
the two-page mutual-link fixture (`A` links only to `B`, `B` only to `A`) a
`maxDepth = 5` crawl of either source variant terminates with exactly the
two records `A ↦ [B]` and `B ↦ [A]`. -/
theorem crawl_terminates (w : String → Option (List String))
    (depth b1 b2 cd : Nat) (url : String) (vis : List String)
    (h1 : depth + 1 - cd ≤ b1) (h2 : depth + 1 - cd ≤ b2) :
    apiCrawl w depth b1 cd url vis = apiCrawl w depth b2 cd url vis ∧
    records (api_run wAB 5 urlA).1 = [(urlA, [urlB]), (urlB, [urlA])] ∧
    sync_run wAB 5 urlA = .ok ([(urlA, [urlB]), (urlB, [urlA])], [urlB, urlA]) :=
  ⟨apiCrawl_budget_irrelevant w depth b1 b2 cd url vis h1 h2, by decide, rfl⟩

/-- Witness for `crawl_terminates` at a concrete fixture. -/
theorem crawl_terminates_witness :
    apiCrawl wAB 5 7 0 urlA [] = apiCrawl wAB 5 6 0 urlA [] ∧
    records (api_run wAB 5 urlA).1 = [(urlA, [urlB]), (urlB, [urlA])] ∧
    sync_run wAB 5 urlA = .ok ([(urlA, [urlB]), (urlB, [urlA])], [urlB, urlA]) :=
  crawl_terminates wAB 5 7 6 0 urlA [] (by omega) (by omega)

/-- C3: when a URL is claimed at `current_depth = maxDepth`, its page is
fetched and its record holds the validated outbound links, but no child
crawl is spawned, so linked pages get no records of their own from this
branch; in particular a `maxDepth = 0` crawl returns exactly one record —
the seed's, with its outbound links populated when the fetch succeeds. -/
theorem crawl_depth_boundary (w : String → Option (List String))
    (b depth : Nat) (url : String) (vis : List String)
    (h : is_valid url = true) (hv : url ∉ vis) :
    apiCrawl w depth (b + 1) depth url vis =
      ([(url, Val.links (((w url).getD []).filter is_valid)),
        ("depth", Val.int depth)], url :: vis) ∧
    records (api_run w 0 url).1 = [(url, ((w url).getD []).filter is_valid)] := by
  have hd := is_valid_ne_depth h
  have key : ∀ (b' depth' : Nat) (vis' : List String), url ∉ vis' →
      apiCrawl w depth' (b' + 1) depth' url vis' =
        ([(url, Val.links (((w url).getD []).filter is_valid)),
          ("depth", Val.int depth')], url :: vis') := by
    intro b' depth' vis' hv'
    have hg : ¬(depth' > depth' ∨ url ∈ vis') := by simp [hv']
    cases hw : w url with
    | none =>
      rw [apiCrawl_fail w depth' b' depth' url vis' hg hw, mkBase_eq _ _ _ hd]
      simp [hw]
    | some cands =>
      rw [apiCrawl_leaf w depth' b' depth' url vis' cands hg hw
            (lt_irrefl depth'), mkBase_eq _ _ _ hd]
      simp [hw]
  refine ⟨key b depth vis hv, ?_⟩
  rw [show api_run w 0 url = apiCrawl w 0 1 0 url [] from rfl,
      key 0 0 [] (by simp)]
  simp [records]

/-- Witness for `crawl_depth_boundary` at a concrete fixture. -/
theorem crawl_depth_boundary_witness :
    apiCrawl wAB 0 1 0 urlA [] =
      ([(urlA, Val.links (((wAB urlA).getD []).filter is_valid)),
        ("depth", Val.int 0)], [urlA]) ∧
    records (api_run wAB 0 urlA).1 =
      [(urlA, ((wAB urlA).getD []).filter is_valid)] :=
  crawl_depth_boundary wAB 0 0 urlA [] (by decide) (by decide)

/-- C4 counterexample: a crawl whose seed fetch fails returns a result
*identical* to that of a crawl whose seed fetch succeeds with a link-free
page, so the returned mapping cannot contain the captured fetch error — the
exception is only logged, not recorded. -/
theorem fetch_error_not_recorded :
    wFail urlA = none ∧ wEmptyA urlA = some [] ∧
    api_run wFail 1 urlA = api_run wEmptyA 1 urlA := by
  refine ⟨rfl, rfl, ?_⟩
  decide

/-- C4 amended: a URL whose fetch fails yields a record with an empty link
list but no error marker; the crawl does not recurse from it; and the
failure is local — on the three-link fixture where `C`'s fetch fails, the
seed and both succeeding siblings still get records, and the invocation
still returns a result. -/
theorem fetch_failure_is_local (w : String → Option (List String))
    (depth b cd : Nat) (url : String) (vis : List String)
    (h : is_valid url = true) (hv : url ∉ vis) (hd : cd ≤ depth)
    (hf : w url = none) :
    apiCrawl w depth (b + 1) cd url vis =
      ([(url, Val.links []), ("depth", Val.int cd)], url :: vis) ∧
    records (api_run wC4 1 urlS).1 =
      [(urlS, [urlB, urlC, urlD]), (urlB, []), (urlC, []), (urlD, [])] := by
  have hud := is_valid_ne_depth h
  have hg : ¬(cd > depth ∨ url ∈ vis) := by
    rintro (hgt | hmem)
    · omega
    · exact hv hmem
  refine ⟨?_, by decide⟩
  rw [apiCrawl_fail w depth b cd url vis hg hf, mkBase_eq _ _ _ hud]

/-- Witness for `fetch_failure_is_local` at a concrete fixture. -/
theorem fetch_failure_is_local_witness :
    apiCrawl wFail 1 1 0 urlA [] =
      ([(urlA, Val.links []), ("depth", Val.int 0)], [urlA]) ∧
    records (api_run wC4 1 urlS).1 =
      [(urlS, [urlB, urlC, urlD]), (urlB, []), (urlC, []), (urlD, [])] :=
  fetch_failure_is_local wFail 1 0 0 urlA [] (by decide) (by decide)
    (by omega) rfl

/-- C5 counterexample: even with a validated seed, the returned mapping
contains the literal key `'depth'`, which does not pass `is_valid`. -/
theorem result_contains_depth_key :
    is_valid urlA = true ∧
    "depth" ∈ (api_run wAB 0 urlA).1.map Prod.fst ∧
    is_valid "depth" = false := by decide

/-- C5 amended: every key of the returned mapping other than the bookkeeping
`'depth'` entry passes `is_valid`, provided the seed does. -/
theorem url_keys_pass_validator (w : String → Option (List String))
    (depth : Nat) (seed : String) (h : is_valid seed = true) :
    ∀ k, k ∈ urlKeys (api_run w depth seed).1 → is_valid k = true := by
  intro k hk
  obtain ⟨_, _, _, i4, _⟩ := apiCrawl_inv w depth (depth + 1) 0 seed []
  rcases i4 k hk with rfl | hvk
  · exact h
  · exact hvk

/-- Witness for `url_keys_pass_validator` at a concrete fixture. -/
theorem url_keys_pass_validator_witness : is_valid urlB = true :=
  url_keys_pass_validator wAB 5 urlA (by decide) urlB (by decide)

/-- C6: evaluation at the failing input: with `A → B` and `maxDepth = 1`,
neither page record carries a depth of its own; the mapping holds a single
top-level `'depth'` key, and the merge overwrites the seed's depth 0 with
the child's depth 1. -/
theorem depth_key_clobbered_by_merge :
    api_run wA2B 1 urlA =
      ([(urlA, Val.links [urlB]), ("depth", Val.int 1), (urlB, Val.links [])],
       [urlB, urlA]) := by decide

/-- C7 counterexample: on the scheduling fixture at `maxDepth = 3`, two
fetch-completion schedules both run the crawl to completion yet produce
different record sets — under one schedule `Y` is recorded, under the other
it is not — so the result content depends on the concurrent scheduling
order even against a static fixture. -/
theorem schedule_changes_result :
    (runSched wC7 3 [0, 1, 1, 1, 0] (initState urlA)).pending = [] ∧
    (runSched wC7 3 [0, 0, 1, 1, 0, 0] (initState urlA)).pending = [] ∧
    urlY ∈ (runSched wC7 3 [0, 0, 1, 1, 0, 0] (initState urlA)).recs.map Prod.fst ∧
    urlY ∉ (runSched wC7 3 [0, 1, 1, 1, 0] (initState urlA)).recs.map Prod.fst := by
  decide

/-- C7 amended: re-running with identical seed and depth under the same
schedule is trivially deterministic, and for `maxDepth = 1` the record
content is genuinely schedule-independent: any two completed runs produce
the same records up to order.  For `maxDepth ≥ 2` schedule-independence
fails (see `schedule_changes_result`). -/
theorem depth_one_schedule_independent (w : String → Option (List String))
    (seed : String) (s1 s2 : List Nat)
    (h1 : (runSched w 1 s1 (initState seed)).pending = [])
    (h2 : (runSched w 1 s2 (initState seed)).pending = []) :
    ((runSched w 1 s1 (initState seed)).recs).Perm
      ((runSched w 1 s2 (initState seed)).recs) :=
  (depth_one_complete_run w seed s1 h1).trans
    (depth_one_complete_run w seed s2 h2).symm

/-- Witness for `depth_one_schedule_independent` at a concrete fixture. -/
theorem depth_one_schedule_independent_witness :
    ((runSched wAB 1 [0, 1, 0] (initState urlA)).recs).Perm
      ((runSched wAB 1 [0, 0] (initState urlA)).recs) :=
  depth_one_schedule_independent wAB urlA [0, 1, 0] [0, 0]
    (by decide) (by decide)

/-- C8 counterexample: crawler.py's validator has no `try`/`except`, so on
`"http://["` the `ValueError` raised by `urlparse` propagates instead of the
function returning false. -/
theorem sync_validator_raises :
    is_valid_sync "http://[" = .error "Invalid IPv6 URL" := rfl

/-- C8 amended: api.py's validator returns true iff the string parses with a
non-empty scheme and a non-empty host/authority, and returns false — never
an error — on parse failure; crawler.py's variant computes the same
predicate on parse success but propagates the parse error. -/
theorem validator_spec (s : String) :
    (is_valid s = true ↔
      ∃ sc nl, urlsplitE s = .ok (sc, nl) ∧ sc ≠ "" ∧ nl ≠ "") ∧
    (∀ e, urlsplitE s = .error e → is_valid s = false) ∧
    (∀ sc nl, urlsplitE s = .ok (sc, nl) →
      is_valid_sync s = .ok (!nl.isEmpty && !sc.isEmpty)) ∧
    (∀ e, urlsplitE s = .error e → is_valid_sync s = .error e) := by
  cases h : urlsplitE s with
  | ok sn =>
    obtain ⟨sc, nl⟩ := sn
    refine ⟨?_, ?_, ?_, ?_⟩
    · simp only [is_valid, h]
      constructor
      · intro hb
        rw [Bool.and_eq_true] at hb
        exact ⟨sc, nl, rfl, (not_isEmpty_iff_ne sc).mp hb.2,
          (not_isEmpty_iff_ne nl).mp hb.1⟩
      · rintro ⟨sc', nl', hok, hsc, hnl⟩
        injection hok with hok'
        injection hok' with he1 he2
        subst he1
        subst he2
        rw [Bool.and_eq_true]
        exact ⟨(not_isEmpty_iff_ne nl).mpr hnl, (not_isEmpty_iff_ne sc).mpr hsc⟩
    · intro e he
      cases he
    · intro sc' nl' hok
      injection hok with hok'
      injection hok' with he1 he2
      subst he1
      subst he2
      simp [is_valid_sync, h]
    · intro e he
      cases he
  | error e0 =>
    refine ⟨?_, ?_, ?_, ?_⟩
    · simp [is_valid, h]
    · intro e _
      simp [is_valid, h]
    · intro sc' nl' hok
      cases hok
    · intro e he
      injection he with he'
      subst he'
      simp [is_valid_sync, h]

/-- Witness for `validator_spec` at a concrete input. -/
theorem validator_spec_witness :
    ∃ sc nl, urlsplitE "http://a.com" = .ok (sc, nl) ∧ sc ≠ "" ∧ nl ≠ "" :=
  (validator_spec "http://a.com").1.mp (by decide)

/-- A network on which every request succeeds with status 200. -/
def netOk : String → NetResult := fun _ => .response 200 "page"

/-- C9: each `fetch` call issues exactly one outbound request — with the
fixed 10-unit timeout and the fixed identifying header — and never retries;
a non-success status (aiohttp's `raise_for_status` fires for status ≥ 400),
a timeout, or a connection failure makes that call (and only that call)
return `None`, while a success status returns the body; the call depends
only on the network's behaviour at its own URL. -/
theorem fetch_contract (net : String → NetResult) (url : String) :
    (fetch net url).2 = [⟨url, 10, "rohiitgit-WebCrawler/1.0"⟩] ∧
    (∀ st body, net url = .response st body → 400 ≤ st →
      (fetch net url).1 = none) ∧
    (net url = .timedOut → (fetch net url).1 = none) ∧
    (net url = .connectionError → (fetch net url).1 = none) ∧
    (∀ st body, net url = .response st body → st < 400 →
      (fetch net url).1 = some body) ∧
    (∀ net', net' url = net url → fetch net' url = fetch net url) := by
  refine ⟨?_, ?_, ?_, ?_, ?_, ?_⟩
  · cases h : net url <;> simp [fetch, session_get, h]
  · intro st body h hst
    simp [fetch, session_get, h, hst]
  · intro h
    simp [fetch, session_get, h]
  · intro h
    simp [fetch, session_get, h]
  · intro st body h hst
    simp [fetch, session_get, h, Nat.not_le.mpr hst]
  · intro net' hnet
    simp [fetch, session_get, hnet]

/-- Witness for `fetch_contract` at a concrete network. -/
theorem fetch_contract_witness : (fetch netOk urlA).1 = some "page" :=
  (fetch_contract netOk urlA).2.2.2.2.1 200 "page" rfl (by omega)

/-- C10: the visited set threads monotonically through `crawl`: a call on a
URL already in the visited set returns the empty dict and leaves the set
unchanged; a URL once added is never removed (the set only grows); and every
URL key of the returned mapping is a member of the visited set the call
returns. -/
theorem visited_set_threading (w : String → Option (List String))
    (depth b cd : Nat) (url : String) (vis : List String) :
    (url ∈ vis → apiCrawl w depth b cd url vis = ([], vis)) ∧
    vis ⊆ (apiCrawl w depth b cd url vis).2 ∧
    (∀ k, k ∈ urlKeys (apiCrawl w depth b cd url vis).1 →
      k ∈ (apiCrawl w depth b cd url vis).2) := by
  obtain ⟨i1, i2, _, _, _⟩ := apiCrawl_inv w depth b cd url vis
  exact ⟨fun h => apiCrawl_stop w depth b cd url vis (Or.inr h), i1,
    fun k hk => (i2 k hk).1⟩

/-- Witness for `visited_set_threading` at a concrete fixture. -/
theorem visited_set_threading_witness :
    apiCrawl wAB 5 6 0 urlA [urlA] = ([], [urlA]) :=
  (visited_set_threading wAB 5 6 0 urlA [urlA]).1 (by decide)
